import Mathlib

/-!
Verification of the Advent-of-Code-2017 repository (Rust) against its
natural-language specification.  Each Rust function used by a claim is
shallowly embedded as an executable Lean definition; machine integers
(u8/u32/u64/usize/i64) are modelled as `Nat`/`Int` (the places where Rust
overflow or panic behaviour could differ are noted next to the definition
concerned).  `Option.none` models a Rust `None`/`Err`/panic as indicated
at each definition.
-/

set_option maxRecDepth 100000

namespace Advent2017

/-! ## util.rs -/

/-- Embedding of Rust `collect::<Option<Vec<_>>>` / `collect::<Result<Vec<_>, _>>`:
apply a fallible function to every element, stopping at the first failure. -/
def collectOption {α β : Type} (f : α → Option β) : List α → Option (List β)
  | [] => some []
  | x :: t =>
    match f x with
    | none => none
    | some b =>
      match collectOption f t with
      | none => none
      | some bs => some (b :: bs)

/-- The outcome of calling a Rust function that can panic: either the call panicked
(e.g. an out-of-bounds index), or it returned a value. -/
inductive RustRes (α : Type) where
  | panicked : RustRes α
  | ret : α → RustRes α
  deriving DecidableEq

/-- For a fallible Rust call (`Option`/`Result` return): true exactly when it neither
panicked nor returned `None`/`Err`. -/
def RustRes.isOkSome {α : Type} : RustRes (Option α) → Bool
  | .ret (some _) => true
  | _ => false

/-- The value of a fallible Rust call when it neither panicked nor returned
`None`/`Err`. -/
def RustRes.successValue {α : Type} : RustRes (Option α) → Option α
  | .ret (some a) => some a
  | _ => none

/-- Embedding of Rust `map(f).collect::<Option<Vec<_>>>` (or `Result`) over a list,
when `f` itself may panic: the iterator is driven in order, the first panic aborts
the whole call, and the first `None`/`Err` short-circuits the collect (later
elements are not evaluated, so a panic hiding there never fires). -/
def collectRust {α β : Type} (f : α → RustRes (Option β)) :
    List α → RustRes (Option (List β))
  | [] => .ret (some [])
  | x :: t =>
    match f x with
    | .panicked => .panicked
    | .ret none => .ret none
    | .ret (some b) =>
      match collectRust f t with
      | .panicked => .panicked
      | .ret none => .ret none
      | .ret (some bs) => .ret (some (b :: bs))

/-- Embedding of `util::count_bits`: `for i in 0..8 { count += ((input & (1u8 << i)) >> i) }`. -/
def count_bits (input : Nat) : Nat :=
  (List.range 8).foldl (fun count i => count + (input &&& (1 <<< i)) >>> i) 0

/-- Embedding of Rust `char::to_digit(10)`: `Some` of the digit value for `'0'..='9'`, else `None`. -/
def charToDigit10 (c : Char) : Option Nat :=
  if c.isDigit then some (c.toNat - 48) else none

/-- Embedding of `util::string_to_number_slice`:
`input.chars().map(|c| c.to_digit(10)).collect::<Option<Vec<u32>>>()`. -/
def string_to_number_slice (input : String) : Option (List Nat) :=
  collectOption charToDigit10 input.data

/-- One hexadecimal digit, upper case, as produced by Rust `{:02X}` formatting. -/
def hexDigit (n : Nat) : Char :=
  if n < 10 then Char.ofNat (48 + n) else Char.ofNat (55 + n)

/-- Rust `format!("{:02X}", b)` for a byte `b < 256`: exactly two upper-case hex digits. -/
def byteToHex (b : Nat) : String :=
  String.mk [hexDigit (b / 16), hexDigit (b % 16)]

/-- Embedding of `util::to_hex_string`: format each byte with `{:02X}` and join with `""`. -/
def to_hex_string (bytes : List Nat) : String :=
  String.join (bytes.map byteToHex)

/-- Rust `String::into_bytes` yields the UTF-8 bytes of the string; this is the
standard UTF-8 encoding of one code point (as a `Nat`). -/
def utf8EncodeCharNat (c : Nat) : List Nat :=
  if c < 0x80 then [c]
  else if c < 0x800 then
    [0xC0 ||| (c >>> 6), 0x80 ||| (c &&& 0x3F)]
  else if c < 0x10000 then
    [0xE0 ||| (c >>> 12), 0x80 ||| ((c >>> 6) &&& 0x3F), 0x80 ||| (c &&& 0x3F)]
  else
    [0xF0 ||| (c >>> 18), 0x80 ||| ((c >>> 12) &&& 0x3F), 0x80 ||| ((c >>> 6) &&& 0x3F),
      0x80 ||| (c &&& 0x3F)]

/-- UTF-8 byte sequence of a string (Rust `str::bytes` / `String::into_bytes`). -/
def utf8Bytes (s : String) : List Nat :=
  s.data.flatMap (fun c => utf8EncodeCharNat c.toNat)

/-! ## day1.rs -/

/-- Embedding of `day1::captcha`: sum, over the enumerated input, of the elements
`numbers[i]` with `numbers[i] == numbers[step(i) % numbers.len()]`. -/
def captcha (numbers : List Nat) (step : Nat → Nat) : Nat :=
  (((numbers.enum).filter
      (fun p => numbers.getD p.1 0 == numbers.getD (step p.1 % numbers.length) 0)).map
    (fun p => p.2)).foldl (· + ·) 0

/-- Embedding of `day1::simple_captcha`: `captcha(numbers, |i| i + 1)`. -/
def simple_captcha (numbers : List Nat) : Nat :=
  captcha numbers (fun i => i + 1)

/-! ## day10.rs: the knot hash -/

structure Knot where
  data : List Nat
  pos : Nat
  skip : Nat
  deriving DecidableEq

/-- Embedding of `Knot::new(len)`: data is `0, 1, ..., len-1, len`, pos and skip are `0`.
(`len` is a `u8` in Rust; the claims instantiate it with values `≤ 255`.) -/
def Knot.new (len : Nat) : Knot :=
  { data := List.range len ++ [len], pos := 0, skip := 0 }

/-- The swap loop inside `Knot::tie` (`for _ in 0..steps { ... }`), recursion on the
remaining number of swaps.  Each iteration swaps `data[start]` and `data[end]` and
moves `start` forward and `end` backward circularly, exactly as in the source. -/
def Knot.swapLoop (dataLen : Nat) : Nat → Nat → Nat → List Nat → List Nat
  | 0, _, _, data => data
  | steps + 1, start, stop, data =>
    let tmp := data.getD start 0
    let data' := (data.set start (data.getD stop 0)).set stop tmp
    Knot.swapLoop dataLen steps ((start + 1) % dataLen) ((dataLen + stop - 1) % dataLen) data'

/-- Embedding of `Knot::tie`.  The Rust initial `end = (self.pos + length - 1) % data_len`
underflows `usize` only when `pos = length = 0`; in that case `steps = length / 2 = 0`
and `end` is never read, so the truncated `Nat` subtraction used here is equivalent. -/
def Knot.tie (k : Knot) (length : Nat) : Knot :=
  let dataLen := k.data.length
  let start := k.pos
  let stop := (k.pos + length - 1) % dataLen
  let steps := length / 2
  { data := Knot.swapLoop dataLen steps start stop k.data,
    pos := (k.pos + length + k.skip) % dataLen,
    skip := k.skip + 1 }

/-- Embedding of `Knot::compute_round`: one `tie` per input length. -/
def Knot.compute_round (k : Knot) (lengths : List Nat) : Knot :=
  lengths.foldl (fun k l => k.tie l) k

/-- The fixed suffix `vec![17, 31, 73, 47, 23]` used by `Knot::compute_hash`. -/
def knotSecret : List Nat := [17, 31, 73, 47, 23]

/-- The `for _ in 0..64` loop of `Knot::compute_hash`: each iteration runs one round
over the input lengths followed by one round over the secret suffix. -/
def Knot.hashLoop (lengths : List Nat) : Nat → Knot → Knot
  | 0, k => k
  | n + 1, k => Knot.hashLoop lengths n ((k.compute_round lengths).compute_round knotSecret)

/-- The dense-hash extraction of `Knot::compute_hash`:
`dense_hash[i] ^= self.data[i*16+j]` for `j in 0..16`.  (The Rust indexing panics
when `data` has fewer than 256 entries; every claim hashes with `Knot::new(255)`,
whose buffer has exactly 256 entries, so the `getD` default is never used there.) -/
def Knot.denseHash (k : Knot) : List Nat :=
  (List.range 16).map (fun i =>
    (List.range 16).foldl (fun acc j => acc ^^^ k.data.getD (i * 16 + j) 0) 0)

/-- Embedding of `Knot::compute_hash`: 64 rounds, then the 16-byte dense hash.
Rust mutates `self`; the mutated knot is returned as the first component. -/
def Knot.compute_hash (k : Knot) (lengths : List Nat) : Knot × List Nat :=
  let k' := Knot.hashLoop lengths 64 k
  (k', k'.denseHash)

/-! ### Fast mirror of the knot buffer for kernel evaluation

The knot buffer is a list of bytes; for the concrete hash computation of claim C2
the list operations are far too slow to reduce inside the kernel.  `bufGet`/`bufSet`
operate on the same buffer encoded as a single natural number in base 256
(`encodeBuf`), and are proved to agree with `List.getD`/`List.set` below; the
redundant `if _ = 0` tests only force evaluation and are provably the identity. -/

def bufGet (buf i : Nat) : Nat := buf / 256 ^ i % 256

def bufSet (buf i v : Nat) : Nat :=
  buf % 256 ^ i + v * 256 ^ i + buf / 256 ^ (i + 1) * 256 ^ (i + 1)

def encodeBuf : List Nat → Nat
  | [] => 0
  | b :: t => b + 256 * encodeBuf t

def swapLoopFast (dataLen : Nat) : Nat → Nat → Nat → Nat → Nat
  | 0, _, _, buf => buf
  | steps + 1, start, stop, buf =>
    let buf' := bufSet (bufSet buf start (bufGet buf stop)) stop (bufGet buf start)
    if buf' = 0 then
      swapLoopFast dataLen steps ((start + 1) % dataLen) ((dataLen + stop - 1) % dataLen) buf'
    else
      swapLoopFast dataLen steps ((start + 1) % dataLen) ((dataLen + stop - 1) % dataLen) buf'

structure KnotFast where
  buf : Nat
  len : Nat
  pos : Nat
  skip : Nat
  deriving DecidableEq

def Knot.toFast (k : Knot) : KnotFast :=
  { buf := encodeBuf k.data, len := k.data.length, pos := k.pos, skip := k.skip }

def tieFast (k : KnotFast) (length : Nat) : KnotFast :=
  let dataLen := k.len
  let start := k.pos
  let stop := (k.pos + length - 1) % dataLen
  let steps := length / 2
  { buf := swapLoopFast dataLen steps start stop k.buf,
    len := k.len,
    pos := (k.pos + length + k.skip) % dataLen,
    skip := k.skip + 1 }

def roundFast (k : KnotFast) (lengths : List Nat) : KnotFast :=
  lengths.foldl (fun k l => tieFast k l) k

def hashLoopFast (lengths : List Nat) : Nat → KnotFast → KnotFast
  | 0, k => k
  | n + 1, k =>
    let k' := roundFast (roundFast k lengths) knotSecret
    if k'.buf = 0 then hashLoopFast lengths n k' else hashLoopFast lengths n k'

def denseHashFast (k : KnotFast) : List Nat :=
  (List.range 16).map (fun i =>
    (List.range 16).foldl (fun acc j => acc ^^^ bufGet k.buf (i * 16 + j)) 0)

/-! ### Knot invariants (claim C9) and correspondence lemmas -/

/-- The invariant of claim C9: the buffer is a permutation of `0..=len`, its length is
`len + 1`, and the cursor is strictly inside the buffer. -/
def KnotInv (k : Knot) (len : Nat) : Prop :=
  k.data.Perm (List.range (len + 1)) ∧ k.data.length = len + 1 ∧ k.pos < k.data.length

instance (l₁ l₂ : List Nat) : Decidable (l₁.Perm l₂) :=
  decidable_of_iff _ List.isPerm_iff

instance (k : Knot) (len : Nat) : Decidable (KnotInv k len) := by
  unfold KnotInv; infer_instance

/-! ## day14.rs -/

/-- Embedding of `day14::compute_fragment_state`: for `i in 0..128`, hash the UTF-8 bytes
of `format!("{}-{}", key, i)` with a fresh `Knot::new(255)`. -/
def compute_fragment_state (key : String) : List (List Nat) :=
  (List.range 128).map (fun i =>
    ((Knot.new 255).compute_hash (utf8Bytes (key ++ "-" ++ toString i))).2)

/-- Embedding of `day14::count_used_squares`: sum of `util::count_bits` over every byte
of every row hash. -/
def count_used_squares (key : String) : Nat :=
  ((compute_fragment_state key).map (fun row => (row.map count_bits).sum)).sum

/-! ## Rust string splitting

Rust `&str` values are modelled as `List Char` (Lean's `String.splitOn` is opaque to
the kernel, so `str::split` is embedded directly: split on every non-overlapping
occurrence of the separator, keeping empty pieces, exactly as Rust does).  The fuel
argument is the length of the string, which bounds the number of steps since every
step consumes at least one character. -/

def splitGo (sep : List Char) : Nat → List Char → List Char → List (List Char)
  | 0, _, acc => [acc.reverse]
  | _ + 1, [], acc => [acc.reverse]
  | fuel + 1, c :: rest, acc =>
    if sep.isPrefixOf (c :: rest) then
      acc.reverse :: splitGo sep fuel (List.drop (sep.length - 1) rest) []
    else
      splitGo sep fuel rest (c :: acc)

/-- Embedding of Rust `str::split(sep)` for a non-empty separator (every separator used
in this repository is non-empty). -/
def splitOnL (s sep : List Char) : List (List Char) :=
  splitGo sep s.length s []

/-! ## day13.rs -/

/-- Embedding of `day13::Layer`. -/
structure Layer where
  position : Nat
  range : Nat
  deriving DecidableEq

/-- Digits folded to a number, as Rust integer parsing does. -/
def natOfDigits (l : List Char) : Nat :=
  l.foldl (fun acc c => acc * 10 + (c.toNat - 48)) 0

/-- Embedding of Rust `str::parse::<u64>`: an optional leading `+`, then one or more
ASCII digits, rejecting values that do not fit in `u64`.  `none` models
`Err(ParseIntError)`. -/
def parseU64 (s : List Char) : Option Nat :=
  let digits := match s with
    | '+' :: rest => rest
    | _ => s
  if digits.isEmpty then none
  else if digits.all Char.isDigit then
    let v := natOfDigits digits
    if v < 2 ^ 64 then some v else none
  else none

/-- Embedding of `Layer::from_str`: split on `": "`, parse each field as `u64` (`?`
propagates the first error as `ret none`), then index fields 0 and 1 — the
`layer[0]`/`layer[1]` indexing panics when fewer than two fields parsed (the split
always yields at least one, so only `layer[1]` can actually panic). -/
def Layer.from_str (input : List Char) : RustRes (Option Layer) :=
  match collectOption parseU64 (splitOnL input [':', ' ']) with
  | none => .ret none
  | some fields =>
    match fields[0]?, fields[1]? with
    | some p, some r => .ret (some { position := p, range := r })
    | _, _ => .panicked

/-- Embedding of `day13::Firewall`. -/
structure Firewall where
  layers : List Layer
  deriving DecidableEq

/-- Embedding of `Firewall::from_str`: split on `"\n"` and parse each line as a layer,
propagating the first error; a panicking line (one that parses but has fewer than
two fields) aborts the whole call. -/
def Firewall.from_str (input : List Char) : RustRes (Option Firewall) :=
  match collectRust Layer.from_str (splitOnL input ['\n']) with
  | .panicked => .panicked
  | .ret none => .ret none
  | .ret (some layers) => .ret (some { layers := layers })

/-- Embedding of `Firewall::is_caught`:
`(layer.position + delay as u64) % (2 * (layer.range - 1)) == 0`.
`none` models the Rust panic: the `u64` subtraction overflow when `range = 0` (debug
builds) and the division by zero when the modulus `2 * (range - 1)` is zero
(`range = 1`). -/
def is_caught (layer : Layer) (delay : Nat) : Option Bool :=
  if layer.range = 0 then none
  else if 2 * (layer.range - 1) = 0 then none
  else some ((layer.position + delay) % (2 * (layer.range - 1)) == 0)

/-- The `filter is_caught → map position * range → sum` pipeline of
`Firewall::compute_severity`; evaluating `is_caught` on a layer may panic (`none`),
and consuming the iterator evaluates it on every layer. -/
def severityLoop (delay : Nat) : List Layer → Option Nat
  | [] => some 0
  | l :: rest =>
    match is_caught l delay with
    | none => none
    | some c =>
      match severityLoop delay rest with
      | none => none
      | some s => some ((if c then l.position * l.range else 0) + s)

/-- Embedding of `Firewall::compute_severity`. -/
def Firewall.compute_severity (fw : Firewall) (delay : Nat) : Option Nat :=
  severityLoop delay fw.layers

/-- Rust `Iterator::any` over `is_caught`: short-circuits at the first caught layer,
so a panicking layer after it is not evaluated. -/
def anyCaught (delay : Nat) : List Layer → Option Bool
  | [] => some false
  | l :: rest =>
    match is_caught l delay with
    | none => none
    | some true => some true
    | some false => anyCaught delay rest

/-- The `for delay in 0..u32::MAX` loop of `Firewall::compute_min_safe_delay`: return
the first delay with no caught layer; after exhausting the loop return 0. -/
def minSafeLoop (fw : Firewall) : Nat → Nat → Option Nat
  | 0, _ => some 0
  | fuel + 1, delay =>
    match anyCaught delay fw.layers with
    | none => none
    | some true => minSafeLoop fw fuel (delay + 1)
    | some false => some delay

/-- Embedding of `Firewall::compute_min_safe_delay`: `u32::MAX` loop iterations. -/
def Firewall.compute_min_safe_delay (fw : Firewall) : Option Nat :=
  minSafeLoop fw (2 ^ 32 - 1) 0

/-! ## day17.rs -/

/-- Embedding of `day17::SpinLock`: the full circular buffer. -/
structure SpinLock where
  position : Nat
  step_size : Nat
  state : List Nat
  deriving DecidableEq

/-- Embedding of `SpinLock::new`: one-element buffer `[0]`. -/
def SpinLock.new (step_size : Nat) : SpinLock :=
  { position := 0, step_size := step_size, state := [0] }

/-- One iteration of the `for i in 1..steps + 1` loop in `SpinLock::short_circuit`:
insert `i` at `((position + step_size) % i) + 1` and move there. -/
def SpinLock.insertStep (s : SpinLock) (i : Nat) : SpinLock :=
  let insert_point := (s.position + s.step_size) % i + 1
  { s with state := s.state.insertIdx insert_point i, position := insert_point }

/-- The whole insertion loop of `SpinLock::short_circuit`: `i` runs over `1..=steps`. -/
def SpinLock.runInsertions (s : SpinLock) (steps : Nat) : SpinLock :=
  (List.range' 1 steps).foldl SpinLock.insertStep s

/-- Embedding of `SpinLock::short_circuit`: after the loop, return the buffer entry
after the final insertion point (which equals the final `position`; both start at 0
and are assigned together), along with the mutated lock. -/
def SpinLock.short_circuit (s : SpinLock) (steps : Nat) : Nat × SpinLock :=
  let s' := s.runInsertions steps
  let point := (s'.position + 1) % s'.state.length
  (s'.state.getD point 0, s')

/-- Embedding of `day17::PseudoSpinLock`: only the position and the value at index 1
are tracked. -/
structure PseudoSpinLock where
  position : Nat
  step_size : Nat
  value_at_first_index : Nat
  deriving DecidableEq

/-- Embedding of `PseudoSpinLock::new`. -/
def PseudoSpinLock.new (step_size : Nat) : PseudoSpinLock :=
  { position := 0, step_size := step_size, value_at_first_index := 0 }

/-- One iteration of the loop in `PseudoSpinLock::short_circuit`: track the insertion
point and remember `i` whenever it is inserted at index 1. -/
def PseudoSpinLock.insertStep (s : PseudoSpinLock) (i : Nat) : PseudoSpinLock :=
  let insert_point := (s.position + s.step_size) % i + 1
  { s with
      position := insert_point
      value_at_first_index := if insert_point = 1 then i else s.value_at_first_index }

/-- Embedding of `PseudoSpinLock::short_circuit`. -/
def PseudoSpinLock.short_circuit (s : PseudoSpinLock) (steps : Nat) : Nat :=
  ((List.range' 1 steps).foldl PseudoSpinLock.insertStep s).value_at_first_index

/-- The refinement invariant tying the partial representation to the full buffer after
`n` insertions: positions agree, the buffer is `0` followed by `n` inserted values,
and (once anything has been inserted) the entry after `0` is the tracked value. -/
def SpinInv (n : Nat) (sp : SpinLock) (ps : PseudoSpinLock) : Prop :=
  sp.position = ps.position ∧ sp.step_size = ps.step_size ∧
    ∃ rest : List Nat, sp.state = 0 :: rest ∧ rest.length = n ∧
      (1 ≤ n → rest.getD 0 0 = ps.value_at_first_index)

/-! ## day18: the duet interpreter (`day18/mod.rs`, `day18/instruction/*`,
`processor/value.rs`, `processor/environment.rs`) -/

/-- Embedding of Rust `str::parse::<i64>` digit handling: non-empty, all ASCII digits,
within the given magnitude bound. -/
def parseI64Digits (l : List Char) (bound : Nat) : Option Nat :=
  if l.isEmpty then none
  else if l.all Char.isDigit then
    let v := natOfDigits l
    if v ≤ bound then some v else none
  else none

/-- Embedding of Rust `str::parse::<i64>`: optional sign, digits, `i64` range check. -/
def parseI64 (s : List Char) : Option Int :=
  match s with
  | '-' :: rest => (parseI64Digits rest (2 ^ 63)).map (fun v => -(v : Int))
  | '+' :: rest => (parseI64Digits rest (2 ^ 63 - 1)).map (fun v => (v : Int))
  | _ => (parseI64Digits s (2 ^ 63 - 1)).map (fun v => (v : Int))

/-- Embedding of `processor::value::Value`: a literal or a register name. -/
inductive Value where
  | Literal : Int → Value
  | Register : List Char → Value
  deriving DecidableEq

/-- Embedding of `Value::parse`: a parseable `i64` is a literal, anything else is a
register name. -/
def Value.parse (input : List Char) : Value :=
  match parseI64 input with
  | some v => Value.Literal v
  | none => Value.Register input

/-- Embedding of `day18::instruction::InstructionType`.  The `Halt` variant is used by
`Program::step` in `day18/mod.rs` (the enum as committed omits it; it is restored
here since `step` returns it). -/
inductive InstructionType where
  | Snd
  | Set
  | Add
  | Mul
  | Mod
  | Rcv
  | Jgz
  | Halt
  deriving DecidableEq

/-- Embedding of the `Instruction` trait objects: one constructor per implementation
(`snd.rs`, `set.rs`, `add.rs`, `mul.rs`, `rem.rs`, `rcv.rs`, `jgz.rs`). -/
inductive Instr where
  | snd : Value → Instr
  | set : List Char → Value → Instr
  | add : List Char → Value → Instr
  | mul : List Char → Value → Instr
  | mod : List Char → Value → Instr
  | rcv : List Char → Instr
  | jgz : Value → Value → Instr
  deriving DecidableEq

/-- The `get_type` method of each instruction. -/
def Instr.getType : Instr → InstructionType
  | .snd _ => .Snd
  | .set _ _ => .Set
  | .add _ _ => .Add
  | .mul _ _ => .Mul
  | .mod _ _ => .Mod
  | .rcv _ => .Rcv
  | .jgz _ _ => .Jgz

/-- Embedding of `processor::environment::Environment`.  The register
`HashMap<String, i64>` is an association list (`get` of an absent register is 0, as
`entry().or_insert(0)` makes observable); the `VecDeque` receive queue is a list.
The `Rc<RefCell<..>>` link between the two environments is omitted because no
instruction in this set ever calls `send`/`receive` (snd stores to the SND special
register and rcv reads it back), so nothing is ever transferred. -/
structure Environment where
  state : List (List Char × Int)
  rcvQueue : List Int
  deriving DecidableEq

def envSet : List (List Char × Int) → List Char → Int → List (List Char × Int)
  | [], r, v => [(r, v)]
  | (r', v') :: rest, r, v =>
    if r' = r then (r, v) :: rest else (r', v') :: envSet rest r v

/-- Embedding of `Environment::new`. -/
def Environment.new : Environment :=
  { state := [], rcvQueue := [] }

/-- Embedding of `Environment::get` (0 for absent registers). -/
def Environment.get (e : Environment) (r : List Char) : Int :=
  (e.state.lookup r).getD 0

/-- Embedding of `Environment::set`. -/
def Environment.set (e : Environment) (r : List Char) (v : Int) : Environment :=
  { e with state := envSet e.state r v }

/-- Embedding of `Environment::get_value`. -/
def Environment.get_value (e : Environment) : Value → Int
  | .Literal v => v
  | .Register name => e.get name

/-- The name of `SpecialRegister::PC` (`"pc"`). -/
def pcName : List Char := "pc".data

/-- The name of `SpecialRegister::SND`: it is referenced by `snd.rs`/`rcv.rs` but its
definition is not in the snapshot (`environment.rs` only defines PC); the name is
fixed as "snd" here, and no claim depends on the choice. -/
def sndName : List Char := "snd".data

/-- Embedding of `Environment::get_pc`. -/
def Environment.get_pc (e : Environment) : Int :=
  e.get pcName

/-- Embedding of `Environment::jump_pc`: `pc := pc + offset - 1` (the pc has already
stepped, a delay-slot convention documented in the source). -/
def Environment.jump_pc (e : Environment) (offset : Int) : Environment :=
  e.set pcName (e.get pcName + offset - 1)

/-- Embedding of `Environment::step_pc`: `jump_pc(1 + 1)`. -/
def Environment.step_pc (e : Environment) : Environment :=
  e.jump_pc (1 + 1)

/-- Embedding of each instruction's `execute` (`&mut Environment -> Option<i64>`
becomes `Environment → Option Int × Environment`).  `%` on `i64` truncates toward
zero (`Int.tmod`); Rust panics on a zero modulus, which no claim exercises. -/
def Instr.execute : Instr → Environment → Option Int × Environment
  | .snd v, env =>
    let value := env.get_value v
    (some value, env.set sndName value)
  | .set r v, env =>
    let value := env.get_value v
    (some value, env.set r value)
  | .add r v, env =>
    let value := env.get r + env.get_value v
    (some value, env.set r value)
  | .mul r v, env =>
    let value := env.get r * env.get_value v
    (some value, env.set r value)
  | .mod r v, env =>
    let value := Int.tmod (env.get r) (env.get_value v)
    (some value, env.set r value)
  | .rcv r, env =>
    let value := env.get r
    if value ≠ 0 then
      let snd := env.get sndName
      (some snd, env.set r snd)
    else (none, env)
  | .jgz c v, env =>
    let rv := env.get_value c
    if rv > 0 then
      let offset := env.get_value v
      (some offset, env.jump_pc offset)
    else (none, env)

/-- The seven mnemonics the day18 instruction parser dispatches on. -/
def mnemonics7 : List (List Char) :=
  ["snd".data, "set".data, "add".data, "mul".data, "mod".data, "rcv".data, "jgz".data]

/-- Embedding of `day18::instruction::parse`: split the line on `" "` and dispatch on
`parts[0]` (the split always yields at least one part, so `parts[0]` cannot panic).
A recognised mnemonic indexes `parts[1]` (and `parts[2]` for two-operand
instructions), which panics when the operands are missing; an unrecognised mnemonic
returns `None`. -/
def parseInstr (input : List Char) : RustRes (Option Instr) :=
  let parts := splitOnL input [' ']
  let mnemonic := parts.headD []
  if mnemonic = "snd".data then
    match parts[1]? with
    | some a => .ret (some (.snd (Value.parse a)))
    | none => .panicked
  else if mnemonic = "set".data then
    match parts[1]?, parts[2]? with
    | some a, some b => .ret (some (.set a (Value.parse b)))
    | _, _ => .panicked
  else if mnemonic = "add".data then
    match parts[1]?, parts[2]? with
    | some a, some b => .ret (some (.add a (Value.parse b)))
    | _, _ => .panicked
  else if mnemonic = "mul".data then
    match parts[1]?, parts[2]? with
    | some a, some b => .ret (some (.mul a (Value.parse b)))
    | _, _ => .panicked
  else if mnemonic = "mod".data then
    match parts[1]?, parts[2]? with
    | some a, some b => .ret (some (.mod a (Value.parse b)))
    | _, _ => .panicked
  else if mnemonic = "rcv".data then
    match parts[1]? with
    | some a => .ret (some (.rcv a))
    | none => .panicked
  else if mnemonic = "jgz".data then
    match parts[1]?, parts[2]? with
    | some a, some b => .ret (some (.jgz (Value.parse a) (Value.parse b)))
    | _, _ => .panicked
  else .ret none

/-- Embedding of `day18::Program`: environment, shared instruction list, and the
`HashMap<InstructionType, usize>` execution counter as an association list. -/
structure Program where
  environment : Environment
  instructions : List Instr
  instructionCount : List (InstructionType × Nat)
  deriving DecidableEq

/-- `entry(t).or_insert(0) += 1` on the counter map. -/
def bumpCount : List (InstructionType × Nat) → InstructionType → List (InstructionType × Nat)
  | [], t => [(t, 1)]
  | (t', n) :: rest, t =>
    if t' = t then (t', n + 1) :: rest else (t', n) :: bumpCount rest t

/-- Embedding of `Program::instruction_count`. -/
def Program.instruction_count (p : Program) (t : InstructionType) : Nat :=
  (p.instructionCount.lookup t).getD 0

/-- Embedding of `Program::step`: fetch at pc (returning `Halt` when the pc is out of
bounds), advance the pc, execute, and count the instruction if it produced a value.
The `getD` default is dead: the bounds check guards the fetch. -/
def Program.step (p : Program) : (InstructionType × Option Int) × Program :=
  let pc := p.environment.get_pc
  if pc < 0 ∨ (p.instructions.length : Int) ≤ pc then
    ((.Halt, none), p)
  else
    let instr := p.instructions.getD pc.toNat (.rcv [])
    let env := p.environment.step_pc
    let r := instr.execute env
    let p' := { p with environment := r.2 }
    let p'' := if r.1 ≠ none then
        { p' with instructionCount := bumpCount p'.instructionCount instr.getType }
      else p'
    ((instr.getType, r.1), p'')

/-- Embedding of `day18::Interpreter`. -/
structure Interpreter where
  program_zero : Program
  program_one : Program
  deriving DecidableEq

/-- Embedding of `Interpreter::new`: parse the lines in order (the first line with an
unrecognised mnemonic makes the whole parse `None`, and a line that panics on
missing operands aborts the call), share the instruction list, and seed the `p`
registers with the process ids 0 and 1. -/
def Interpreter.new (input : List Char) : RustRes (Option Interpreter) :=
  match collectRust parseInstr (splitOnL input ['\n']) with
  | .panicked => .panicked
  | .ret none => .ret none
  | .ret (some instructions) =>
    .ret (some
      { program_zero :=
          { environment := Environment.new.set ("p".data) 0,
            instructions := instructions, instructionCount := [] },
        program_one :=
          { environment := Environment.new.set ("p".data) 1,
            instructions := instructions, instructionCount := [] } })

/-- Why one inner `while` loop of `Interpreter::execute` stopped. -/
inductive BurstExit where
  | halted
  | blocked
  | fuelOut
  deriving DecidableEq

structure BurstResult where
  prog : Program
  why : BurstExit
  steps : Nat
  progress : Bool
  deriving DecidableEq

/-- One inner `while !halted` loop of `Interpreter::execute`: step the program until it
halts (`InstructionType::Halt`) or a `Rcv` yields no value; `progress` is Rust's
`made_progress` contribution (true when at least one step neither halted nor
blocked).  The fuel bounds the number of steps. -/
def runBurst : Nat → Program → BurstResult
  | 0, p => ⟨p, .fuelOut, 0, false⟩
  | fuel + 1, p =>
    let r := p.step
    if r.1.1 = .Halt then ⟨r.2, .halted, 1, false⟩
    else if r.1.1 = .Rcv ∧ r.1.2 = none then ⟨r.2, .blocked, 1, false⟩
    else
      let rest := runBurst fuel r.2
      ⟨rest.prog, rest.why, rest.steps + 1, true⟩

structure ExecResult where
  program_zero : Program
  program_one : Program
  exit_zero : BurstExit
  exit_one : BurstExit
  sched : List Bool
  deriving DecidableEq

/-- The outer `while made_progress` loop of `Interpreter::execute`: run program zero's
burst, then program one's (a program whose halted flag is set is skipped), and stop
as soon as a full pass makes no progress.  `sched` records which program executed
each step (`false` = program zero, `true` = program one); `none` only on fuel
exhaustion. -/
def execLoop (burstFuel : Nat) :
    Nat → Program → Program → Bool → Bool → List Bool → Option ExecResult
  | 0, _, _, _, _, _ => none
  | passFuel + 1, p0, p1, h0, h1, sched =>
    let r0 := if h0 then BurstResult.mk p0 .halted 0 false else runBurst burstFuel p0
    let r1 := if h1 then BurstResult.mk p1 .halted 0 false else runBurst burstFuel p1
    if r0.why = .fuelOut ∨ r1.why = .fuelOut then none
    else
      let sched' := sched ++ List.replicate r0.steps false ++ List.replicate r1.steps true
      if r0.progress || r1.progress then
        execLoop burstFuel passFuel r0.prog r1.prog
          (decide (r0.why = .halted)) (decide (r1.why = .halted)) sched'
      else
        some ⟨r0.prog, r1.prog, r0.why, r1.why, sched'⟩

/-- `Interpreter::execute`'s loop, instrumented with the schedule and exit causes. -/
def Interpreter.executeRun (itp : Interpreter) (burstFuel passFuel : Nat) :
    Option ExecResult :=
  execLoop burstFuel passFuel itp.program_zero itp.program_one false false []

/-- Embedding of `Interpreter::execute`'s return value: program one's count of
executed `Snd` instructions. -/
def Interpreter.execute (itp : Interpreter) (burstFuel passFuel : Nat) : Option Nat :=
  (itp.executeRun burstFuel passFuel).map
    (fun r => r.program_one.instruction_count .Snd)

/-- A schedule alternates in single steps: no two consecutive steps belong to the same
program. -/
def Alternates (l : List Bool) : Prop :=
  ∀ i, i + 1 < l.length → l.getD i false ≠ l.getD (i + 1) false

instance (l : List Bool) : Decidable (Alternates l) :=
  decidable_of_iff (∀ i, i < l.length - 1 → l.getD i false ≠ l.getD (i + 1) false)
    (by
      constructor
      · intro h i hi
        exact h i (by omega)
      · intro h i hi
        exact h i (by omega))

/-- A schedule is a sequence of bursts: a prefix run of program-zero steps, then a run
of program-one steps, repeated. -/
def AltBursts (l : List Bool) : Prop :=
  ∃ ps : List (Nat × Nat),
    l = (ps.map (fun q => List.replicate q.1 false ++ List.replicate q.2 true)).flatten

/-! ## Theorems -/

theorem knotInv_new (len : Nat) : KnotInv (Knot.new len) len := by
  refine ⟨?_, ?_, ?_⟩
  · rw [Knot.new, ← List.range_succ]
  · simp [Knot.new]
  · simp [Knot.new]

/-- Pulling the `k`-th element of a list to the front while writing `a` into
position `k` permutes `a :: t`. -/
theorem getD_cons_set_perm :
    ∀ (t : List Nat) (k : Nat) (a : Nat), k < t.length →
      (t.getD k 0 :: t.set k a).Perm (a :: t) := by
  intro t
  induction t with
  | nil => intro k a hk; simp at hk
  | cons b t' ih =>
    intro k a hk
    cases k with
    | zero => simpa using List.Perm.swap a b t'
    | succ k =>
      have hk' : k < t'.length := by simpa using hk
      simp only [List.getD_cons_succ, List.set_cons_succ]
      exact (List.Perm.swap _ _ _).trans
        ((List.Perm.cons _ (ih k a hk')).trans (List.Perm.swap _ _ _))

/-- Swapping two in-bounds entries of a list (by a double `set`) permutes it. -/
theorem set_set_perm :
    ∀ (l : List Nat) (i j : Nat), i < l.length → j < l.length →
      ((l.set i (l.getD j 0)).set j (l.getD i 0)).Perm l := by
  intro l
  induction l with
  | nil => intro i j hi _; simp at hi
  | cons a t ih =>
    intro i j hi hj
    cases i with
    | zero =>
      cases j with
      | zero => simp
      | succ k =>
        have hk : k < t.length := by simpa using hj
        simpa using getD_cons_set_perm t k a hk
    | succ k =>
      cases j with
      | zero =>
        have hk : k < t.length := by simpa using hi
        simpa using getD_cons_set_perm t k a hk
      | succ m =>
        have hi' : k < t.length := by simpa using hi
        have hj' : m < t.length := by simpa using hj
        simpa using List.Perm.cons a (ih k m hi' hj')

theorem swapLoop_perm :
    ∀ (steps start stop : Nat) (l : List Nat), start < l.length → stop < l.length →
      (Knot.swapLoop l.length steps start stop l).Perm l := by
  intro steps
  induction steps with
  | zero => intro start stop l _ _; rw [Knot.swapLoop]
  | succ n ih =>
    intro start stop l hstart hstop
    rw [Knot.swapLoop]
    have hlen0 : 0 < l.length := Nat.lt_of_le_of_lt (Nat.zero_le _) hstart
    have hperm : ((l.set start (l.getD stop 0)).set stop (l.getD start 0)).Perm l :=
      set_set_perm l start stop hstart hstop
    have hlen : ((l.set start (l.getD stop 0)).set stop (l.getD start 0)).length = l.length := by
      simp
    have h1 : (start + 1) % l.length < l.length := Nat.mod_lt _ hlen0
    have h2 : (l.length + stop - 1) % l.length < l.length := Nat.mod_lt _ hlen0
    have := ih ((start + 1) % l.length) ((l.length + stop - 1) % l.length)
      ((l.set start (l.getD stop 0)).set stop (l.getD start 0))
      (by rw [hlen]; exact h1) (by rw [hlen]; exact h2)
    rw [hlen] at this
    exact this.trans hperm

theorem knotInv_tie {k : Knot} {len : Nat} (h : KnotInv k len) (l : Nat) :
    KnotInv (k.tie l) len := by
  obtain ⟨hperm, hlen, hpos⟩ := h
  have hlen0 : 0 < k.data.length := Nat.lt_of_le_of_lt (Nat.zero_le _) hpos
  have hstop : (k.pos + l - 1) % k.data.length < k.data.length := Nat.mod_lt _ hlen0
  have hswap := swapLoop_perm (l / 2) k.pos ((k.pos + l - 1) % k.data.length) k.data hpos hstop
  refine ⟨hswap.trans hperm, ?_, ?_⟩
  · rw [Knot.tie]
    simpa using (hswap.length_eq).trans hlen
  · rw [Knot.tie]
    simpa [hswap.length_eq] using Nat.mod_lt (k.pos + l + k.skip) hlen0

theorem knotInv_round {k : Knot} {len : Nat} (h : KnotInv k len) (ls : List Nat) :
    KnotInv (k.compute_round ls) len := by
  rw [Knot.compute_round]
  induction ls generalizing k with
  | nil => simpa using h
  | cons a t ih => exact ih (knotInv_tie h a)

theorem knotInv_hashLoop {len : Nat} (ls : List Nat) :
    ∀ (n : Nat) (k : Knot), KnotInv k len → KnotInv (Knot.hashLoop ls n k) len := by
  intro n
  induction n with
  | zero => intro k h; rw [Knot.hashLoop]; exact h
  | succ m ih =>
    intro k h
    rw [Knot.hashLoop]
    exact ih _ (knotInv_round (knotInv_round h ls) knotSecret)

theorem knotInv_data_lt {k : Knot} {len : Nat} (h : KnotInv k len) :
    ∀ b ∈ k.data, b < len + 1 := by
  intro b hb
  have := h.1.mem_iff.mp hb
  exact List.mem_range.mp this

theorem bufGet_encodeBuf :
    ∀ (l : List Nat) (i : Nat), (∀ b ∈ l, b < 256) →
      bufGet (encodeBuf l) i = l.getD i 0 := by
  intro l
  induction l with
  | nil => intro i _; simp [bufGet, encodeBuf]
  | cons b t ih =>
    intro i h
    have hb : b < 256 := h b (by simp)
    have ht : ∀ x ∈ t, x < 256 := fun x hx => h x (by simp [hx])
    cases i with
    | zero =>
      show (b + 256 * encodeBuf t) / 256 ^ 0 % 256 = b
      rw [pow_zero, Nat.div_one, Nat.add_mul_mod_self_left, Nat.mod_eq_of_lt hb]
    | succ i =>
      show (b + 256 * encodeBuf t) / 256 ^ (i + 1) % 256 = t.getD i 0
      rw [pow_succ, mul_comm (256 ^ i) 256, ← Nat.div_div_eq_div_mul,
        Nat.add_mul_div_left _ _ (by norm_num : (0:ℕ) < 256),
        Nat.div_eq_of_lt hb, Nat.zero_add]
      exact ih i ht

theorem bufSet_encodeBuf :
    ∀ (l : List Nat) (i v : Nat), i < l.length → (∀ b ∈ l, b < 256) →
      bufSet (encodeBuf l) i v = encodeBuf (l.set i v) := by
  intro l
  induction l with
  | nil => intro i v hi _; simp at hi
  | cons b t ih =>
    intro i v hi h
    have hb : b < 256 := h b (by simp)
    have ht : ∀ x ∈ t, x < 256 := fun x hx => h x (by simp [hx])
    cases i with
    | zero =>
      show (b + 256 * encodeBuf t) % 256 ^ 0 + v * 256 ^ 0 +
          (b + 256 * encodeBuf t) / 256 ^ (0 + 1) * 256 ^ (0 + 1) = encodeBuf (v :: t)
      rw [pow_zero, Nat.mod_one, pow_one, Nat.add_mul_div_left _ _
        (by norm_num : (0:ℕ) < 256), Nat.div_eq_of_lt hb]
      show 0 + v * 1 + (0 + encodeBuf t) * 256 = v + 256 * encodeBuf t
      ring
    | succ i =>
      have hi' : i < t.length := by simpa using hi
      show (b + 256 * encodeBuf t) % 256 ^ (i + 1) + v * 256 ^ (i + 1) +
          (b + 256 * encodeBuf t) / 256 ^ (i + 1 + 1) * 256 ^ (i + 1 + 1)
          = encodeBuf (b :: t.set i v)
      have hmod : (b + 256 * encodeBuf t) % 256 ^ (i + 1)
          = b + 256 * (encodeBuf t % 256 ^ i) := by
        conv_lhs => rw [← Nat.div_add_mod (encodeBuf t) (256 ^ i)]
        have hrw : b + 256 * (256 ^ i * (encodeBuf t / 256 ^ i) + encodeBuf t % 256 ^ i)
            = b + 256 * (encodeBuf t % 256 ^ i) + 256 ^ (i + 1) * (encodeBuf t / 256 ^ i) := by
          rw [pow_succ]; ring
        rw [hrw, Nat.add_mul_mod_self_left, Nat.mod_eq_of_lt]
        have h1 : encodeBuf t % 256 ^ i < 256 ^ i := Nat.mod_lt _ (Nat.pos_pow_of_pos i (by norm_num))
        calc b + 256 * (encodeBuf t % 256 ^ i) < 256 + 256 * (encodeBuf t % 256 ^ i) := by omega
          _ ≤ 256 + 256 * (256 ^ i - 1) := by
              have := Nat.le_pred_of_lt h1
              exact Nat.add_le_add_left (Nat.mul_le_mul_left _ this) _
          _ = 256 * 256 ^ i := by
              have h2 : 1 ≤ 256 ^ i := Nat.one_le_pow i 256 (by norm_num)
              omega
          _ = 256 ^ (i + 1) := by rw [pow_succ]; ring
      have hdiv : (b + 256 * encodeBuf t) / 256 ^ (i + 1 + 1)
          = encodeBuf t / 256 ^ (i + 1) := by
        rw [pow_succ 256 (i + 1), mul_comm (256 ^ (i + 1)) 256, ← Nat.div_div_eq_div_mul,
          Nat.add_mul_div_left _ _ (by norm_num : (0:ℕ) < 256),
          Nat.div_eq_of_lt hb, Nat.zero_add]
      rw [hmod, hdiv]
      show _ = b + 256 * encodeBuf (t.set i v)
      rw [← ih i v hi' ht]
      show b + 256 * (encodeBuf t % 256 ^ i) + v * 256 ^ (i + 1) +
          encodeBuf t / 256 ^ (i + 1) * 256 ^ (i + 1 + 1)
          = b + 256 * (encodeBuf t % 256 ^ i + v * 256 ^ i +
              encodeBuf t / 256 ^ (i + 1) * 256 ^ (i + 1))
      rw [pow_succ 256 (i + 1), pow_succ 256 i]; ring

theorem set_set_lt {l : List Nat} {start stop : Nat}
    (h : ∀ b ∈ l, b < 256) (hstart : start < l.length) (hstop : stop < l.length) :
    ∀ b ∈ (l.set start (l.getD stop 0)).set stop (l.getD start 0), b < 256 := by
  have hget : ∀ j, j < l.length → l.getD j 0 < 256 := by
    intro j hj
    rw [List.getD_eq_getElem l 0 hj]
    exact h _ (List.getElem_mem hj)
  intro b hb
  rcases List.mem_or_eq_of_mem_set hb with hb' | rfl
  · rcases List.mem_or_eq_of_mem_set hb' with hb'' | rfl
    · exact h b hb''
    · exact hget _ hstop
  · exact hget _ hstart

theorem swapLoopFast_encodeBuf :
    ∀ (steps start stop : Nat) (l : List Nat), (∀ b ∈ l, b < 256) →
      start < l.length → stop < l.length →
      swapLoopFast l.length steps start stop (encodeBuf l)
        = encodeBuf (Knot.swapLoop l.length steps start stop l) := by
  intro steps
  induction steps with
  | zero => intro start stop l _ _ _; rw [swapLoopFast, Knot.swapLoop]
  | succ n ih =>
    intro start stop l h hstart hstop
    have hlen0 : 0 < l.length := Nat.lt_of_le_of_lt (Nat.zero_le _) hstart
    rw [swapLoopFast, Knot.swapLoop]
    rw [ite_self]
    have hget1 := bufGet_encodeBuf l stop h
    have hget2 := bufGet_encodeBuf l start h
    have hset1 := bufSet_encodeBuf l start (l.getD stop 0) hstart h
    have hlt1 : ∀ b ∈ l.set start (l.getD stop 0), b < 256 := by
      intro b hb
      rcases List.mem_or_eq_of_mem_set hb with hb' | rfl
      · exact h b hb'
      · rw [List.getD_eq_getElem l 0 hstop]; exact h _ (List.getElem_mem hstop)
    have hset2 := bufSet_encodeBuf (l.set start (l.getD stop 0)) stop (l.getD start 0)
      (by simpa using hstop) hlt1
    have hl' : ((l.set start (l.getD stop 0)).set stop (l.getD start 0)).length = l.length := by
      simp
    have hlt2 := set_set_lt h hstart hstop
    have := ih ((start + 1) % l.length) ((l.length + stop - 1) % l.length)
      ((l.set start (l.getD stop 0)).set stop (l.getD start 0))
      hlt2 (by rw [hl']; exact Nat.mod_lt _ hlen0) (by rw [hl']; exact Nat.mod_lt _ hlen0)
    rw [hl'] at this
    rw [hget1, hget2, hset1, hset2, this]

theorem tieFast_toFast {k : Knot} {len : Nat} (hinv : KnotInv k len) (hlen : len < 256)
    (l : Nat) : tieFast k.toFast l = (k.tie l).toFast := by
  have hpos := hinv.2.2
  have hlen0 : 0 < k.data.length := Nat.lt_of_le_of_lt (Nat.zero_le _) hpos
  have hdata : ∀ b ∈ k.data, b < 256 := fun b hb =>
    Nat.lt_of_lt_of_le (knotInv_data_lt hinv b hb) (by omega)
  have hstop : (k.pos + l - 1) % k.data.length < k.data.length := Nat.mod_lt _ hlen0
  have hswapcorr := swapLoopFast_encodeBuf (l / 2) k.pos ((k.pos + l - 1) % k.data.length)
    k.data hdata hpos hstop
  have hswaplen : (Knot.swapLoop k.data.length (l / 2) k.pos
      ((k.pos + l - 1) % k.data.length) k.data).length = k.data.length :=
    (swapLoop_perm _ _ _ _ hpos hstop).length_eq
  simp only [tieFast, Knot.tie, Knot.toFast, KnotFast.mk.injEq]
  refine ⟨hswapcorr, hswaplen.symm, ?_⟩
  trivial

theorem roundFast_toFast {len : Nat} (hlen : len < 256) :
    ∀ (ls : List Nat) (k : Knot), KnotInv k len →
      roundFast k.toFast ls = (k.compute_round ls).toFast := by
  intro ls
  induction ls with
  | nil => intro k _; rfl
  | cons a t ih =>
    intro k hinv
    show List.foldl (fun k l => tieFast k l) (tieFast k.toFast a) t
      = ((k.tie a).compute_round t).toFast
    rw [tieFast_toFast hinv hlen a]
    exact ih (k.tie a) (knotInv_tie hinv a)

theorem hashLoopFast_toFast {len : Nat} (ls : List Nat) (hlen : len < 256) :
    ∀ (n : Nat) (k : Knot), KnotInv k len →
      hashLoopFast ls n k.toFast = (Knot.hashLoop ls n k).toFast := by
  intro n
  induction n with
  | zero => intro k _; rfl
  | succ m ih =>
    intro k hinv
    rw [hashLoopFast, Knot.hashLoop, ite_self]
    show hashLoopFast ls m (roundFast (roundFast k.toFast ls) knotSecret) = _
    rw [roundFast_toFast hlen ls k hinv,
      roundFast_toFast hlen knotSecret _ (knotInv_round hinv ls)]
    exact ih _ (knotInv_round (knotInv_round hinv ls) knotSecret)

theorem denseHashFast_toFast {k : Knot} (h : ∀ b ∈ k.data, b < 256) :
    denseHashFast k.toFast = k.denseHash := by
  simp only [denseHashFast, Knot.denseHash, Knot.toFast]
  refine List.map_congr_left ?_
  intro i _
  have hf : (fun acc j => acc ^^^ bufGet (encodeBuf k.data) (i * 16 + j))
      = (fun acc j => acc ^^^ k.data.getD (i * 16 + j) 0) := by
    funext acc j
    rw [bufGet_encodeBuf k.data _ h]
  rw [hf]

/-! ## Claim theorems for day10 -/

/-- Claim C2: for the input string "AoC 2017", constructing `Knot::new(255)` and calling
`compute_hash` on the input's bytes yields a 16-byte dense hash whose hexadecimal
rendering via `util::to_hex_string` is "33EFEB34EA91902BB2F59C9920CAA6CD" (the hash
runs 64 rounds over the lengths followed by the suffix `[17, 31, 73, 47, 23]`, then
XOR-folds each block of 16 sparse values). -/
theorem knot_hash_aoc2017 :
    to_hex_string ((Knot.new 255).compute_hash (utf8Bytes "AoC 2017")).2
      = "33EFEB34EA91902BB2F59C9920CAA6CD" := by
  have hinv : KnotInv (Knot.new 255) 255 := knotInv_new 255
  have hcorr := hashLoopFast_toFast (utf8Bytes "AoC 2017") (by norm_num : (255:ℕ) < 256)
    64 (Knot.new 255) hinv
  have hinv' : KnotInv (Knot.hashLoop (utf8Bytes "AoC 2017") 64 (Knot.new 255)) 255 :=
    knotInv_hashLoop _ 64 _ hinv
  have hlt : ∀ b ∈ (Knot.hashLoop (utf8Bytes "AoC 2017") 64 (Knot.new 255)).data, b < 256 :=
    fun b hb => knotInv_data_lt hinv' b hb
  have h2 : ((Knot.new 255).compute_hash (utf8Bytes "AoC 2017")).2
      = Knot.denseHash (Knot.hashLoop (utf8Bytes "AoC 2017") 64 (Knot.new 255)) := rfl
  rw [h2, ← denseHashFast_toFast hlt, ← hcorr]
  decide

/-- Claim C9: every Knot operation (`tie`, `compute_round`, `compute_hash`) preserves the
invariant established by `Knot::new(len)`: the data buffer is a permutation of the
values `0` through `len`, the buffer length stays `len + 1`, and `pos` stays strictly
below the buffer length. -/
theorem knot_ops_preserve_invariant (k : Knot) (len l : Nat) (ls : List Nat)
    (h : KnotInv k len) :
    KnotInv (Knot.new len) len ∧ KnotInv (k.tie l) len ∧
      KnotInv (k.compute_round ls) len ∧ KnotInv (k.compute_hash ls).1 len :=
  ⟨knotInv_new len, knotInv_tie h l, knotInv_round h ls,
    knotInv_hashLoop ls 64 k h⟩

/-- Witness for C9: the invariant hypothesis is satisfiable, e.g. by `Knot::new(4)`. -/
theorem knot_ops_preserve_invariant_witness :
    KnotInv (Knot.new 4) 4 ∧
      (KnotInv (Knot.new 4) 4 ∧ KnotInv ((Knot.new 4).tie 3) 4 ∧
        KnotInv ((Knot.new 4).compute_round [3, 2]) 4 ∧
        KnotInv ((Knot.new 4).compute_hash [3, 2]).1 4) :=
  ⟨by decide, knot_ops_preserve_invariant (Knot.new 4) 4 3 [3, 2] (by decide)⟩

/-- Bridge between the loop of `util::count_bits` and the number of set bits of a byte. -/
theorem count_bits_eq_countP_testBit :
    ∀ b, b < 256 → count_bits b = (List.range 8).countP (fun j => b.testBit j) := by
  decide

theorem list_range_map_sum (n : Nat) (f : Nat → Nat) :
    ((List.range n).map f).sum = ∑ i in Finset.range n, f i := by
  induction n with
  | zero => simp
  | succ m ih =>
    rw [List.range_succ, List.map_append, List.sum_append, Finset.sum_range_succ, ih]
    simp

/-- Every byte of the dense hash is below 256 whenever the sparse buffer holds bytes. -/
theorem denseHash_lt {k : Knot} (h : ∀ b ∈ k.data, b < 256) :
    ∀ b ∈ k.denseHash, b < 256 := by
  intro b hb
  rw [Knot.denseHash] at hb
  obtain ⟨i, _, rfl⟩ := List.mem_map.mp hb
  have key : ∀ (js : List Nat) (acc : Nat), acc < 256 →
      js.foldl (fun acc j => acc ^^^ k.data.getD (i * 16 + j) 0) acc < 256 := by
    intro js
    induction js with
    | nil => intro acc hacc; simpa using hacc
    | cons j t ih =>
      intro acc hacc
      apply ih
      have hg : k.data.getD (i * 16 + j) 0 < 256 := by
        rcases Nat.lt_or_ge (i * 16 + j) k.data.length with hlt' | hge
        · rw [List.getD_eq_getElem _ _ hlt']
          exact h _ (List.getElem_mem hlt')
        · rw [List.getD_eq_default _ _ hge]
          norm_num
      have h256 : (256 : ℕ) = 2 ^ 8 := by norm_num
      rw [h256] at hacc hg ⊢
      exact Nat.xor_lt_two_pow hacc hg
  exact key _ 0 (by norm_num)

theorem hash_bytes_lt (lengths : List Nat) :
    ∀ b ∈ ((Knot.new 255).compute_hash lengths).2, b < 256 := by
  have hinv : KnotInv (Knot.hashLoop lengths 64 (Knot.new 255)) 255 :=
    knotInv_hashLoop lengths 64 _ (knotInv_new 255)
  exact denseHash_lt (knotInv_data_lt hinv)

/-- Claim C1: for every key string, `day14::count_used_squares(key)` equals the total
number of 1 bits across the 128 sixteen-byte dense hashes obtained by applying
`day10`'s `Knot::compute_hash` (with a fresh `Knot::new(255)`) to the bytes of
"key-0" through "key-127"; day14 reuses day10's knot hash as its only hash
primitive. -/
theorem count_used_squares_eq_total_bits (key : String) :
    count_used_squares key =
      ∑ i in Finset.range 128,
        ((((Knot.new 255).compute_hash (utf8Bytes (key ++ "-" ++ toString i))).2).map
          (fun b => (List.range 8).countP (fun j => b.testBit j))).sum := by
  rw [count_used_squares, compute_fragment_state, List.map_map]
  rw [show ((fun row : List Nat => (row.map count_bits).sum) ∘ fun i =>
      ((Knot.new 255).compute_hash (utf8Bytes (key ++ "-" ++ toString i))).2)
    = fun i => ((((Knot.new 255).compute_hash
        (utf8Bytes (key ++ "-" ++ toString i))).2).map count_bits).sum from rfl]
  rw [list_range_map_sum]
  refine Finset.sum_congr rfl ?_
  intro i _
  refine congrArg List.sum (List.map_congr_left ?_)
  intro b hb
  exact count_bits_eq_countP_testBit b (hash_bytes_lt _ b hb)

/-! ## Claim theorem for day1 -/

theorem sum_map_snd_filter (l : List (Nat × Nat)) (p : Nat × Nat → Bool) :
    ((l.filter p).map (fun x => x.2)).sum = (l.map (fun x => if p x then x.2 else 0)).sum := by
  induction l with
  | nil => rfl
  | cons a t ih =>
    by_cases h : p a
    · simp [List.filter_cons, h, ih]
    · simp [List.filter_cons, h, ih]

theorem enum_map_getD (ns : List Nat) (f : Nat × Nat → Nat) :
    ns.enum.map f = (List.range ns.length).map (fun i => f (i, ns.getD i 0)) := by
  apply List.ext_getElem
  · simp
  · intro n h1 h2
    have hn : n < ns.length := by simpa using h1
    simp only [List.getElem_map, List.getElem_range]
    rw [List.getElem_enum, List.getD_eq_getElem ns 0 hn]

/-- Claim C6: `day1::simple_captcha` applied to `[1, 1, 2, 2]` returns 3, where
`simple_captcha` sums every element that equals its circular successor (the element
at index `(i + 1) % length`). -/
theorem simple_captcha_spec :
    simple_captcha [1, 1, 2, 2] = 3 ∧
      ∀ ns : List Nat, simple_captcha ns =
        ∑ i in Finset.range ns.length,
          if ns.getD i 0 = ns.getD ((i + 1) % ns.length) 0 then ns.getD i 0 else 0 := by
  constructor
  · decide
  · intro ns
    rw [simple_captcha, captcha, ← List.sum_eq_foldl, sum_map_snd_filter, enum_map_getD,
      list_range_map_sum]
    refine Finset.sum_congr rfl ?_
    intro i _
    simp [beq_iff_eq]

theorem is_caught_isSome {l : Layer} (h : 2 ≤ l.range) (delay : Nat) :
    (is_caught l delay).isSome := by
  rw [is_caught]
  have h0 : l.range ≠ 0 := by omega
  have h1 : 2 * (l.range - 1) ≠ 0 := by omega
  simp [h0, h1]

theorem severityLoop_isSome {delay : Nat} :
    ∀ ls : List Layer, (∀ l ∈ ls, 2 ≤ l.range) → (severityLoop delay ls).isSome := by
  intro ls
  induction ls with
  | nil => intro _; rw [severityLoop]; rfl
  | cons a t ih =>
    intro h
    rw [severityLoop]
    have ha := is_caught_isSome (h a (by simp)) delay
    have ht := ih (fun l hl => h l (by simp [hl]))
    cases hc : is_caught a delay with
    | none => rw [hc] at ha; simp at ha
    | some c =>
      cases hs : severityLoop delay t with
      | none => rw [hs] at ht; simp at ht
      | some s => rfl

theorem severityLoop_none {delay : Nat} :
    ∀ ls : List Layer, (∃ l ∈ ls, l.range = 1) → severityLoop delay ls = none := by
  intro ls
  induction ls with
  | nil => rintro ⟨l, hl, _⟩; simp at hl
  | cons a t ih =>
    rintro ⟨l, hl, hr⟩
    rcases List.mem_cons.mp hl with rfl | hl'
    · rw [severityLoop, is_caught, hr]
      norm_num
    · rw [severityLoop]
      cases hc : is_caught a delay with
      | none => rfl
      | some c => rw [ih ⟨l, hl', hr⟩]

theorem anyCaught_isSome {delay : Nat} :
    ∀ ls : List Layer, (∀ l ∈ ls, 2 ≤ l.range) → (anyCaught delay ls).isSome := by
  intro ls
  induction ls with
  | nil => intro _; rw [anyCaught]; rfl
  | cons a t ih =>
    intro h
    rw [anyCaught]
    have ha := is_caught_isSome (h a (by simp)) delay
    have ht := ih (fun l hl => h l (by simp [hl]))
    cases hc : is_caught a delay with
    | none => rw [hc] at ha; simp at ha
    | some c =>
      cases c
      · exact ht
      · rfl

theorem minSafeLoop_isSome {fw : Firewall} (h : ∀ l ∈ fw.layers, 2 ≤ l.range) :
    ∀ (fuel delay : Nat), (minSafeLoop fw fuel delay).isSome := by
  intro fuel
  induction fuel with
  | zero => intro delay; rw [minSafeLoop]; rfl
  | succ n ih =>
    intro delay
    rw [minSafeLoop]
    have ha := @anyCaught_isSome delay fw.layers h
    cases hc : anyCaught delay fw.layers with
    | none => rw [hc] at ha; simp at ha
    | some c =>
      cases c
      · rfl
      · exact ih (delay + 1)

/-! ## Claim theorems for day13 -/

/-- Claim C7: for the firewall described by the layer list "0: 3\n1: 2\n4: 4\n6: 4",
`Firewall::compute_severity` with delay 0 returns 24, where the severity is the sum of
`position * range` over every layer whose scanner is at position 0 when the packet
arrives, i.e. layers with `(position + delay) % (2 * (range - 1)) == 0`. -/
theorem firewall_severity_example :
    Firewall.from_str ("0: 3\n1: 2\n4: 4\n6: 4".data)
        = .ret (some ⟨[⟨0, 3⟩, ⟨1, 2⟩, ⟨4, 4⟩, ⟨6, 4⟩]⟩) ∧
      Firewall.compute_severity ⟨[⟨0, 3⟩, ⟨1, 2⟩, ⟨4, 4⟩, ⟨6, 4⟩]⟩ 0 = some 24 := by
  constructor
  · decide
  · decide

/-- Claim C10: `Firewall::compute_severity` and `Firewall::compute_min_safe_delay` are
only defined under the precondition that every parsed layer has `range >= 2`:
`is_caught` reduces `position + delay` modulo `2 * (range - 1)`, so a layer with
range 1 makes the modulus zero and the computation fails; under the precondition the
division-by-zero branch is unreachable. -/
theorem firewall_range_precondition (fw : Firewall) (delay : Nat) (fw2 : Firewall)
    (delay2 : Nat) (h : ∀ l ∈ fw.layers, 2 ≤ l.range)
    (h2 : ∃ l ∈ fw2.layers, l.range = 1) :
    (fw.compute_severity delay).isSome ∧ fw.compute_min_safe_delay.isSome ∧
      fw2.compute_severity delay2 = none :=
  ⟨severityLoop_isSome fw.layers h, minSafeLoop_isSome h _ 0,
    severityLoop_none fw2.layers h2⟩

/-- Witness for C10: the preconditions are satisfiable, e.g. by the day13 test firewall
and a single layer of range 1. -/
theorem firewall_range_precondition_witness :
    (∀ l ∈ (Firewall.mk [⟨0, 3⟩, ⟨1, 2⟩, ⟨4, 4⟩, ⟨6, 4⟩]).layers, 2 ≤ l.range) ∧
      (∃ l ∈ (Firewall.mk [⟨0, 1⟩]).layers, l.range = 1) ∧
      ((Firewall.mk [⟨0, 3⟩, ⟨1, 2⟩, ⟨4, 4⟩, ⟨6, 4⟩]).compute_severity 0).isSome ∧
      (Firewall.mk [⟨0, 3⟩, ⟨1, 2⟩, ⟨4, 4⟩, ⟨6, 4⟩]).compute_min_safe_delay.isSome ∧
      (Firewall.mk [⟨0, 1⟩]).compute_severity 0 = none := by
  refine ⟨by decide, by decide, ?_⟩
  have := firewall_range_precondition (Firewall.mk [⟨0, 3⟩, ⟨1, 2⟩, ⟨4, 4⟩, ⟨6, 4⟩]) 0
    (Firewall.mk [⟨0, 1⟩]) 0 (by decide) (by decide)
  exact ⟨this.1, this.2.1, this.2.2⟩

theorem spinInv_step {n : Nat} {sp : SpinLock} {ps : PseudoSpinLock}
    (h : SpinInv n sp ps) : SpinInv (n + 1) (sp.insertStep (n + 1)) (ps.insertStep (n + 1)) := by
  obtain ⟨hpos, hstep, rest, hstate, hlen, hval⟩ := h
  have hip : (sp.position + sp.step_size) % (n + 1) + 1
      = (ps.position + ps.step_size) % (n + 1) + 1 := by rw [hpos, hstep]
  refine ⟨?_, ?_, ?_⟩
  · show (sp.position + sp.step_size) % (n + 1) + 1 = (ps.position + ps.step_size) % (n + 1) + 1
    exact hip
  · exact hstep
  · have hmod : (sp.position + sp.step_size) % (n + 1) ≤ n :=
      Nat.le_of_lt_succ (Nat.mod_lt _ (Nat.succ_pos n))
    refine ⟨(rest.insertIdx ((sp.position + sp.step_size) % (n + 1)) (n + 1)), ?_, ?_, ?_⟩
    · show sp.state.insertIdx ((sp.position + sp.step_size) % (n + 1) + 1) (n + 1) = _
      rw [hstate]
      rfl
    · rw [List.length_insertIdx _ _ (by omega), hlen]
    · intro _
      have hps : (ps.insertStep (n + 1)).value_at_first_index
          = if (ps.position + ps.step_size) % (n + 1) + 1 = 1 then n + 1
            else ps.value_at_first_index := rfl
      rw [hps]
      rcases hk : (sp.position + sp.step_size) % (n + 1) with _ | k
      · have hk2 : (ps.position + ps.step_size) % (n + 1) = 0 := by
          rw [← hpos, ← hstep]; exact hk
        rw [hk2]
        simp [List.insertIdx]
      · have hk2 : (ps.position + ps.step_size) % (n + 1) = k + 1 := by
          rw [← hpos, ← hstep]; exact hk
        rw [hk2]
        have hn1 : 1 ≤ n := by
          rw [hk] at hmod
          omega
        rcases rest with _ | ⟨b, rest2⟩
        · exfalso
          simp at hlen
          omega
        · simp only [List.insertIdx]
          simpa using hval hn1

theorem spinInv_run (ss : Nat) :
    ∀ steps : Nat, SpinInv steps ((SpinLock.new ss).runInsertions steps)
      ((List.range' 1 steps).foldl PseudoSpinLock.insertStep (PseudoSpinLock.new ss)) := by
  intro steps
  induction steps with
  | zero =>
    refine ⟨rfl, rfl, [], rfl, rfl, ?_⟩
    intro h
    omega
  | succ n ih =>
    rw [SpinLock.runInsertions, List.range'_concat, List.foldl_append, List.foldl_append]
    simp only [List.foldl_cons, List.foldl_nil]
    have h1n : 1 + 1 * n = n + 1 := by omega
    rw [h1n]
    exact spinInv_step ih

/-! ## Claim theorem for day17 -/

/-- Claim C8: for every `step_size` and every steps count `n ≥ 1`,
`PseudoSpinLock::new(step_size).short_circuit(n)` equals the element immediately
following the value 0 in the circular buffer of `SpinLock::new(step_size)` after the
same `n` insertions: the optimised partial representation refines the full buffer
simulation. -/
theorem pseudo_refines_spinlock (step_size steps : Nat) (h : 1 ≤ steps) :
    (PseudoSpinLock.new step_size).short_circuit steps =
      ((SpinLock.new step_size).runInsertions steps).state.getD
        ((((SpinLock.new step_size).runInsertions steps).state.indexOf 0 + 1) %
          ((SpinLock.new step_size).runInsertions steps).state.length) 0 := by
  obtain ⟨hpos, hstep, rest, hstate, hlen, hval⟩ := spinInv_run step_size steps
  rw [PseudoSpinLock.short_circuit, ← hval h, hstate]
  rw [List.indexOf_cons_self]
  have hlen2 : (0 :: rest).length = steps + 1 := by simp [hlen]
  rw [hlen2]
  have hmod : (0 + 1) % (steps + 1) = 1 := Nat.mod_eq_of_lt (by omega)
  rw [hmod]
  rfl

/-- Witness for C8: instantiated at `step_size = 3`, `steps = 4`. -/
theorem pseudo_refines_spinlock_witness :
    1 ≤ 4 ∧ (PseudoSpinLock.new 3).short_circuit 4 =
      ((SpinLock.new 3).runInsertions 4).state.getD
        ((((SpinLock.new 3).runInsertions 4).state.indexOf 0 + 1) %
          ((SpinLock.new 3).runInsertions 4).state.length) 0 :=
  ⟨by decide, pseudo_refines_spinlock 3 4 (by decide)⟩

/-! ## Claim theorems for day18 -/

/-- A line is accepted by the day18 instruction parser exactly when its first
space-separated token is one of the seven mnemonics. -/
theorem parseInstr_ret_none_iff (input : List Char) :
    parseInstr input = .ret none ↔ (splitOnL input [' ']).headD [] ∉ mnemonics7 := by
  simp only [parseInstr]
  split_ifs with h1 h2 h3 h4 h5 h6 h7
  · rw [h1]
    rcases hp : (splitOnL input [' '])[1]? with _ | a <;>
      exact iff_of_false (by simp) (by decide)
  · rw [h2]
    rcases hp : (splitOnL input [' '])[1]? with _ | a <;>
      rcases hq : (splitOnL input [' '])[2]? with _ | b <;>
      exact iff_of_false (by simp) (by decide)
  · rw [h3]
    rcases hp : (splitOnL input [' '])[1]? with _ | a <;>
      rcases hq : (splitOnL input [' '])[2]? with _ | b <;>
      exact iff_of_false (by simp) (by decide)
  · rw [h4]
    rcases hp : (splitOnL input [' '])[1]? with _ | a <;>
      rcases hq : (splitOnL input [' '])[2]? with _ | b <;>
      exact iff_of_false (by simp) (by decide)
  · rw [h5]
    rcases hp : (splitOnL input [' '])[1]? with _ | a <;>
      rcases hq : (splitOnL input [' '])[2]? with _ | b <;>
      exact iff_of_false (by simp) (by decide)
  · rw [h6]
    rcases hp : (splitOnL input [' '])[1]? with _ | a <;>
      exact iff_of_false (by simp) (by decide)
  · rw [h7]
    rcases hp : (splitOnL input [' '])[1]? with _ | a <;>
      rcases hq : (splitOnL input [' '])[2]? with _ | b <;>
      exact iff_of_false (by simp) (by decide)
  · refine iff_of_true rfl ?_
    intro hmem
    simp only [mnemonics7, List.mem_cons, List.not_mem_nil, or_false] at hmem
    rcases hmem with h | h | h | h | h | h | h
    exacts [absurd h h1, absurd h h2, absurd h h3, absurd h h4, absurd h h5,
      absurd h h6, absurd h h7]

/-- Claim C4 is false as stated: there is no 5-element set of mnemonics characterising
the lines the day18 instruction parser accepts, because it accepts seven distinct
mnemonics (snd, set, add, mul, mod, rcv, jgz). -/
theorem parse_not_five_mnemonics :
    ¬ ∃ S : Finset (List Char), S.card = 5 ∧
      ∀ input : List Char,
        (parseInstr input).isOkSome = true ↔ (splitOnL input [' ']).headD [] ∈ S := by
  rintro ⟨S, hcard, hiff⟩
  have hmem : ∀ w : String, (parseInstr ((w ++ " a 1").data)).isOkSome = true →
      (splitOnL ((w ++ " a 1").data) [' ']).headD [] ∈ S :=
    fun w h => (hiff _).mp h
  have h1 : "snd".data ∈ S := by
    have := hmem "snd" (by decide)
    rwa [show (splitOnL (("snd" ++ " a 1" : String).data) [' ']).headD [] = "snd".data
      from by decide] at this
  have h2 : "set".data ∈ S := by
    have := hmem "set" (by decide)
    rwa [show (splitOnL (("set" ++ " a 1" : String).data) [' ']).headD [] = "set".data
      from by decide] at this
  have h3 : "add".data ∈ S := by
    have := hmem "add" (by decide)
    rwa [show (splitOnL (("add" ++ " a 1" : String).data) [' ']).headD [] = "add".data
      from by decide] at this
  have h4 : "mul".data ∈ S := by
    have := hmem "mul" (by decide)
    rwa [show (splitOnL (("mul" ++ " a 1" : String).data) [' ']).headD [] = "mul".data
      from by decide] at this
  have h5 : "mod".data ∈ S := by
    have := hmem "mod" (by decide)
    rwa [show (splitOnL (("mod" ++ " a 1" : String).data) [' ']).headD [] = "mod".data
      from by decide] at this
  have h6 : "rcv".data ∈ S := by
    have := hmem "rcv" (by decide)
    rwa [show (splitOnL (("rcv" ++ " a 1" : String).data) [' ']).headD [] = "rcv".data
      from by decide] at this
  have h7 : "jgz".data ∈ S := by
    have := hmem "jgz" (by decide)
    rwa [show (splitOnL (("jgz" ++ " a 1" : String).data) [' ']).headD [] = "jgz".data
      from by decide] at this
  have hsub : ({"snd".data, "set".data, "add".data, "mul".data, "mod".data, "rcv".data,
      "jgz".data} : Finset (List Char)) ⊆ S := by
    intro x hx
    simp only [Finset.mem_insert, Finset.mem_singleton] at hx
    rcases hx with rfl | rfl | rfl | rfl | rfl | rfl | rfl <;> assumption
  have hseven : ({"snd".data, "set".data, "add".data, "mul".data, "mod".data, "rcv".data,
      "jgz".data} : Finset (List Char)).card = 7 := by decide
  have := Finset.card_le_card hsub
  omega

/-- Claim C4, amended: the day18 instruction parser dispatches on exactly seven
distinct mnemonics — snd, set, add, mul, mod, rcv and jgz: it returns `None` exactly
for the lines whose first space-separated token is none of them, while a line with a
recognised mnemonic either yields an instruction (operands present) or panics on the
`parts[1]`/`parts[2]` indexing (operands missing). -/
theorem parse_accepts_exactly_seven :
    mnemonics7.Nodup ∧
      (∀ input : List Char,
        parseInstr input = .ret none ↔ (splitOnL input [' ']).headD [] ∉ mnemonics7) ∧
      (∀ input : List Char, (parseInstr input).isOkSome = true →
        (splitOnL input [' ']).headD [] ∈ mnemonics7) ∧
      (∀ input : List Char, parseInstr input = .panicked →
        (splitOnL input [' ']).headD [] ∈ mnemonics7) := by
  refine ⟨by decide, parseInstr_ret_none_iff, ?_, ?_⟩
  · intro input h
    by_contra hmem
    rw [(parseInstr_ret_none_iff input).mpr hmem] at h
    simp [RustRes.isOkSome] at h
  · intro input h
    by_contra hmem
    rw [(parseInstr_ret_none_iff input).mpr hmem] at h
    simp at h

/-- Collecting a fallible function over a list fails as soon as any element fails. -/
theorem collectOption_eq_none_of_mem {α β : Type} (f : α → Option β) :
    ∀ (l : List α) (a : α), a ∈ l → f a = none → collectOption f l = none := by
  intro l
  induction l with
  | nil => intro a ha; simp at ha
  | cons x t ih =>
    intro a ha hfa
    rcases List.mem_cons.mp ha with rfl | ha'
    · rw [collectOption, hfa]
    · rw [collectOption]
      cases hx : f x with
      | none => rfl
      | some b => rw [ih a ha' hfa]

theorem collectOption_digit_all :
    ∀ l : List Char, (∀ c ∈ l, c.isDigit) →
      collectOption charToDigit10 l = some (l.map (fun c => c.toNat - 48)) := by
  intro l
  induction l with
  | nil => intro _; rfl
  | cons c t ih =>
    intro h
    have hc : c.isDigit := h c (by simp)
    rw [collectOption, ih (fun x hx => h x (by simp [hx]))]
    simp [charToDigit10, hc]

theorem RustRes.isOkSome_iff {α : Type} (r : RustRes (Option α)) :
    r.isOkSome = true ↔ ∃ a, r = .ret (some a) := by
  cases r with
  | panicked => simp [RustRes.isOkSome]
  | ret o => cases o <;> simp [RustRes.isOkSome]

/-- Driving a panic-aware collect in order: if every element of a prefix succeeds and
the next element returns `None`/`Err`, the whole collect returns `None`/`Err`. -/
theorem collectRust_ret_none {α β : Type} (f : α → RustRes (Option β)) :
    ∀ (pre : List α) (x : α) (post : List α),
      (∀ l ∈ pre, (f l).isOkSome = true) → f x = .ret none →
      collectRust f (pre ++ x :: post) = .ret none := by
  intro pre
  induction pre with
  | nil =>
    intro x post _ hx
    show collectRust f (x :: post) = _
    rw [collectRust, hx]
  | cons p pre2 ih =>
    intro x post hpre hx
    obtain ⟨b, hb⟩ := (RustRes.isOkSome_iff (f p)).mp (hpre p (by simp))
    show collectRust f (p :: (pre2 ++ x :: post)) = _
    rw [collectRust, hb, ih x post (fun l hl => hpre l (by simp [hl])) hx]

/-- Claim C5 is false as stated: a day18 program text whose second line has an
unrecognised mnemonic, but whose first line is an operand-less "set", makes
`Interpreter::new` panic at the `parts[1]` indexing instead of returning `None`; and
a day13 input whose second line has a field failing integer parsing, but whose first
line "5" parses to a single field, makes `Firewall::from_str` panic at the
`layer[1]` indexing instead of returning `Err`. -/
theorem parse_boundary_panics :
    (∃ line ∈ splitOnL ("set\nfoo 1".data) ['\n'],
        (splitOnL line [' ']).headD [] ∉ mnemonics7) ∧
      Interpreter.new ("set\nfoo 1".data) = .panicked ∧
      Interpreter.new ("set\nfoo 1".data) ≠ .ret none ∧
      (∃ line ∈ splitOnL ("5\nx: 2".data) ['\n'],
        ∃ fld ∈ splitOnL line [':', ' '], parseU64 fld = none) ∧
      Firewall.from_str ("5\nx: 2".data) = .panicked ∧
      Firewall.from_str ("5\nx: 2".data) ≠ .ret none := by
  refine ⟨by decide, by decide, by decide, by decide, by decide, by decide⟩

/-- Claim C5, amended: malformed input is handled by returning an optional/result
value at the parsing boundary, except that missing operands or fields panic instead
of returning: every input string containing a non-digit character makes
`util::string_to_number_slice` return `None` (and it returns `Some` of the digit
values otherwise); `Interpreter::new` returns `None` when, driving the program's
lines in order, every line before some line parses to an instruction and that line
has an unrecognised mnemonic; and `Firewall::from_str` returns `Err` when every line
before some line parses to a layer and that line has a field that fails `u64`
parsing. -/
theorem parse_failure_handling (s1 s2 : String) (prog fwtext : List Char)
    (pre post fpre fpost : List (List Char)) (line fline : List Char)
    (h1 : ∃ c ∈ s1.data, ¬ c.isDigit)
    (h2 : ∀ c ∈ s2.data, c.isDigit)
    (h3 : splitOnL prog ['\n'] = pre ++ line :: post)
    (h4 : ∀ l ∈ pre, (parseInstr l).isOkSome = true)
    (h5 : (splitOnL line [' ']).headD [] ∉ mnemonics7)
    (h6 : splitOnL fwtext ['\n'] = fpre ++ fline :: fpost)
    (h7 : ∀ l ∈ fpre, (Layer.from_str l).isOkSome = true)
    (h8 : ∃ fld ∈ splitOnL fline [':', ' '], parseU64 fld = none) :
    string_to_number_slice s1 = none ∧
      string_to_number_slice s2 = some (s2.data.map (fun c => c.toNat - 48)) ∧
      Interpreter.new prog = .ret none ∧
      Firewall.from_str fwtext = .ret none := by
  obtain ⟨c, hc, hcd⟩ := h1
  obtain ⟨fld, hfld, hfldnone⟩ := h8
  refine ⟨?_, ?_, ?_, ?_⟩
  · rw [string_to_number_slice]
    exact collectOption_eq_none_of_mem _ s1.data c hc (by simp [charToDigit10, hcd])
  · rw [string_to_number_slice]
    exact collectOption_digit_all s2.data h2
  · have hnone : parseInstr line = .ret none := (parseInstr_ret_none_iff line).mpr h5
    rw [Interpreter.new, h3, collectRust_ret_none parseInstr pre line post h4 hnone]
  · have hlnone : Layer.from_str fline = .ret none := by
      rw [Layer.from_str, collectOption_eq_none_of_mem _ _ fld hfld hfldnone]
    rw [Firewall.from_str, h6,
      collectRust_ret_none Layer.from_str fpre fline fpost h7 hlnone]

/-- Witness for C5 (amended): concrete malformed and well-formed inputs satisfying
all hypotheses — the failing line comes second, after a line that parses. -/
theorem parse_failure_handling_witness :
    (∃ c ∈ ("12a" : String).data, ¬ c.isDigit) ∧
      (∀ c ∈ ("123" : String).data, c.isDigit) ∧
      (splitOnL ("set a 1\nfoo 2".data) ['\n']
        = ["set a 1".data] ++ "foo 2".data :: []) ∧
      (∀ l ∈ ["set a 1".data], (parseInstr l).isOkSome = true) ∧
      ((splitOnL ("foo 2".data) [' ']).headD [] ∉ mnemonics7) ∧
      (splitOnL ("0: 3\nx: 2".data) ['\n'] = ["0: 3".data] ++ "x: 2".data :: []) ∧
      (∀ l ∈ ["0: 3".data], (Layer.from_str l).isOkSome = true) ∧
      (∃ fld ∈ splitOnL ("x: 2".data) [':', ' '], parseU64 fld = none) ∧
      (string_to_number_slice "12a" = none ∧
        string_to_number_slice "123"
          = some (("123" : String).data.map (fun c => c.toNat - 48)) ∧
        Interpreter.new ("set a 1\nfoo 2".data) = .ret none ∧
        Firewall.from_str ("0: 3\nx: 2".data) = .ret none) := by
  refine ⟨by decide, by decide, by decide, by decide, by decide, by decide, by decide,
    by decide, ?_⟩
  exact parse_failure_handling "12a" "123" ("set a 1\nfoo 2".data) ("0: 3\nx: 2".data)
    ["set a 1".data] [] ["0: 3".data] [] ("foo 2".data) ("x: 2".data)
    (by decide) (by decide) (by decide) (by decide) (by decide) (by decide) (by decide)
    (by decide)

/-- A step reports a blocking receive (`Rcv` with no value) exactly when the pc is in
bounds, the fetched instruction is `rcv r`, and register `r` holds 0 after the pc
step — the receive queue plays no part. -/
theorem step_blocked_iff (p : Program) :
    (p.step.1.1 = .Rcv ∧ p.step.1.2 = none) ↔
      (¬ (p.environment.get_pc < 0 ∨ (p.instructions.length : Int) ≤ p.environment.get_pc) ∧
        ∃ r, p.instructions.getD p.environment.get_pc.toNat (.rcv []) = .rcv r ∧
          p.environment.step_pc.get r = 0) := by
  simp only [Program.step]
  by_cases hb : p.environment.get_pc < 0 ∨ (p.instructions.length : Int) ≤ p.environment.get_pc
  · rw [if_pos hb]
    constructor
    · rintro ⟨h, _⟩
      simp at h
    · rintro ⟨hnb, _⟩
      exact absurd hb hnb
  · rw [if_neg hb]
    rcases hi : p.instructions.getD p.environment.get_pc.toNat (.rcv []) with
      v | ⟨r1, v1⟩ | ⟨r2, v2⟩ | ⟨r3, v3⟩ | ⟨r4, v4⟩ | r | ⟨c, v⟩
    · simp [Instr.getType, Instr.execute, hb, hi]
    · simp [Instr.getType, Instr.execute, hb, hi]
    · simp [Instr.getType, Instr.execute, hb, hi]
    · simp [Instr.getType, Instr.execute, hb, hi]
    · simp [Instr.getType, Instr.execute, hb, hi]
    · by_cases hv : p.environment.step_pc.get r = 0
      · simp [Instr.getType, Instr.execute, hb, hi, hv]
      · simp [Instr.getType, Instr.execute, hb, hi, hv]
    · by_cases hc : p.environment.step_pc.get_value c > 0
      · simp [Instr.getType, Instr.execute, hb, hi, hc]
      · simp [Instr.getType, Instr.execute, hb, hi, hc]

/-- The outer loop of `Interpreter::execute` only returns after a pass in which both
machines stopped by halting or by a blocking receive, and the schedule it accumulates
is an alternation of bursts. -/
theorem execLoop_spec (burstFuel : Nat) :
    ∀ (passFuel : Nat) (p0 p1 : Program) (h0 h1 : Bool) (sched : List Bool)
      (res : ExecResult), execLoop burstFuel passFuel p0 p1 h0 h1 sched = some res →
      (res.exit_zero = .halted ∨ res.exit_zero = .blocked) ∧
        (res.exit_one = .halted ∨ res.exit_one = .blocked) ∧
        ∃ tail, res.sched = sched ++ tail ∧ AltBursts tail := by
  intro passFuel
  induction passFuel with
  | zero =>
    intro p0 p1 h0 h1 sched res h
    rw [execLoop] at h
    cases h
  | succ n ih =>
    intro p0 p1 h0 h1 sched res h
    simp only [execLoop] at h
    generalize hr0 : (if h0 = true then BurstResult.mk p0 BurstExit.halted 0 false
      else runBurst burstFuel p0) = r0 at h
    generalize hr1 : (if h1 = true then BurstResult.mk p1 BurstExit.halted 0 false
      else runBurst burstFuel p1) = r1 at h
    by_cases hf : r0.why = BurstExit.fuelOut ∨ r1.why = BurstExit.fuelOut
    · rw [if_pos hf] at h
      cases h
    · rw [if_neg hf] at h
      push_neg at hf
      by_cases hp : (r0.progress || r1.progress) = true
      · rw [if_pos hp] at h
        obtain ⟨e0, e1, tail, htail, halt⟩ := ih _ _ _ _ _ _ h
        refine ⟨e0, e1,
          List.replicate r0.steps false ++ (List.replicate r1.steps true ++ tail), ?_, ?_⟩
        · rw [htail]
          simp [List.append_assoc]
        · obtain ⟨ps, hps⟩ := halt
          refine ⟨(r0.steps, r1.steps) :: ps, ?_⟩
          simp [hps]
      · rw [if_neg hp] at h
        injection h with h
        subst h
        refine ⟨?_, ?_, ?_⟩
        · cases hw : r0.why with
          | halted => exact Or.inl (by simp [ExecResult.exit_zero, hw])
          | blocked => exact Or.inr (by simp [ExecResult.exit_zero, hw])
          | fuelOut => exact absurd hw hf.1
        · cases hw : r1.why with
          | halted => exact Or.inl (by simp [ExecResult.exit_one, hw])
          | blocked => exact Or.inr (by simp [ExecResult.exit_one, hw])
          | fuelOut => exact absurd hw hf.2
        · refine ⟨List.replicate r0.steps false ++ List.replicate r1.steps true, ?_, ?_⟩
          · simp [ExecResult.sched, List.append_assoc]
          · exact ⟨[(r0.steps, r1.steps)], by simp⟩

/-- Claim C3 is false as stated: the program "set a 1\nrcv b" is parseable, yet
`Interpreter::execute`'s schedule is not an alternation of single steps — program
zero executes two consecutive steps before program one runs at all (the interpreter
alternates whole run-to-block bursts, not single steps). -/
theorem execute_not_single_step_alternation :
    ((Interpreter.new ("set a 1\nrcv b".data)).successValue.bind
        (fun itp => (itp.executeRun 10 10).map (fun r => decide (Alternates r.sched))))
      = some false := by
  decide

/-- Claim C3, amended: `Interpreter::execute` runs the two program instances strictly
sequentially on one thread in alternating bursts (not single steps): program zero is
stepped repeatedly until it halts (pc out of bounds) or a `rcv` yields no value, then
program one likewise, until a full pass makes no progress; whenever the loop
terminates, each machine's last burst ended in a halt or a blocked rcv, the recorded
schedule is an alternation of bursts, and a step blocks exactly when the fetched
instruction is a `rcv` whose register holds 0 — the message queues are never
consulted (this instruction set stores sounds in the SND register instead). -/
theorem execute_alternating_bursts (itp : Interpreter) (burstFuel passFuel : Nat)
    (res : ExecResult) (h : itp.executeRun burstFuel passFuel = some res) :
    (res.exit_zero = .halted ∨ res.exit_zero = .blocked) ∧
      (res.exit_one = .halted ∨ res.exit_one = .blocked) ∧
      AltBursts res.sched ∧
      ∀ p : Program,
        (p.step.1.1 = .Rcv ∧ p.step.1.2 = none) ↔
          (¬ (p.environment.get_pc < 0 ∨
              (p.instructions.length : Int) ≤ p.environment.get_pc) ∧
            ∃ r, p.instructions.getD p.environment.get_pc.toNat (.rcv []) = .rcv r ∧
              p.environment.step_pc.get r = 0) := by
  obtain ⟨e0, e1, tail, htail, halt⟩ := execLoop_spec burstFuel passFuel _ _ _ _ _ _ h
  refine ⟨e0, e1, ?_, step_blocked_iff⟩
  rw [htail]
  simpa using halt

/-- Witness for C3 (amended): the concrete parseable program "set a 1\nrcv b"
terminates within fuel 10/10, so the theorem's hypothesis is satisfiable. -/
theorem execute_alternating_bursts_witness :
    ((Interpreter.new ("set a 1\nrcv b".data)).successValue.bind
        (fun itp => itp.executeRun 10 10)).elim False
      (fun res =>
        (res.exit_zero = .halted ∨ res.exit_zero = .blocked) ∧
          (res.exit_one = .halted ∨ res.exit_one = .blocked) ∧
          AltBursts res.sched ∧
          ∀ p : Program,
            (p.step.1.1 = .Rcv ∧ p.step.1.2 = none) ↔
              (¬ (p.environment.get_pc < 0 ∨
                  (p.instructions.length : Int) ≤ p.environment.get_pc) ∧
                ∃ r, p.instructions.getD p.environment.get_pc.toNat (.rcv []) = .rcv r ∧
                  p.environment.step_pc.get r = 0)) := by
  cases hb : (Interpreter.new ("set a 1\nrcv b".data)).successValue.bind
      (fun itp => itp.executeRun 10 10) with
  | none => exact absurd hb (by decide)
  | some res =>
    obtain ⟨itp, hitp, hrun⟩ := Option.bind_eq_some.mp hb
    exact execute_alternating_bursts itp 10 10 res hrun

end Advent2017
